import Mathlib

/-!
Verification development for the PhishingEmail repository.

The repository has two Python source files:
- src/extract.py : parse_mbox splits an mbox text into message segments,
  parses each segment into a header mapping plus a body string, and
  extract_emails_to_json reads the input file with utf-8 decoding and the
  ignore error handler.
- src/jsonTOeml.py : sanitize_filename cleans a proposed file name and
  convert_json_to_eml turns an array of email records into one file per
  record, deriving the file name from the X-CCC-HASH header, the Subject
  header, or a positional fallback.

Python strings are modeled as lists of characters (Chars).  Python
builtins used by the code (str.strip, str.splitlines, truthiness, the
concrete regular expressions appearing in the sources) are embedded as
executable Lean functions, each annotated with the source location it
embeds.
-/

/-- Chars models a Python str value as a list of characters. -/
abbrev Chars := List Char

/-- strL converts a Lean string literal to its character list. -/
def strL (s : String) : Chars := s.data

/-- isPySpace models membership in the Python whitespace class: the set of
characters stripped by str.strip and matched by the regex class backslash-s
on str patterns (ASCII whitespace, the C1 separators, and the Unicode
space characters). -/
def isPySpace (c : Char) : Bool :=
  c = ' ' || c = '\t' || c = '\n' || c = '\r' || c = '\x0b' || c = '\x0c' ||
  (0x1c ≤ c.toNat && c.toNat ≤ 0x1f) || c.toNat = 0x85 || c.toNat = 0xa0 ||
  c.toNat = 0x1680 || (0x2000 ≤ c.toNat && c.toNat ≤ 0x200a) ||
  c.toNat = 0x2028 || c.toNat = 0x2029 || c.toNat = 0x202f ||
  c.toNat = 0x205f || c.toNat = 0x3000

/-- pyStrip models Python str.strip with no argument: remove whitespace
from both ends. -/
def pyStrip (s : Chars) : Chars :=
  ((s.dropWhile isPySpace).reverse.dropWhile isPySpace).reverse

/-- isLineBreak models the line boundary set of Python str.splitlines. -/
def isLineBreak (c : Char) : Bool :=
  c = '\n' || c = '\r' || c = '\x0b' || c = '\x0c' ||
  c.toNat = 0x1c || c.toNat = 0x1d || c.toNat = 0x1e || c.toNat = 0x85 ||
  c.toNat = 0x2028 || c.toNat = 0x2029

/-- splitlinesAux is the scanning loop of Python str.splitlines; acc holds
the current line reversed.  A carriage return followed by a line feed
counts as a single boundary; a trailing boundary does not produce an empty
final line. -/
def splitlinesAux (acc : Chars) : Chars → List Chars
  | [] => if acc.isEmpty then [] else [acc.reverse]
  | '\r' :: '\n' :: rest2 => acc.reverse :: splitlinesAux [] rest2
  | c :: rest =>
    if isLineBreak c then acc.reverse :: splitlinesAux [] rest
    else splitlinesAux (c :: acc) rest

/-- pySplitlines models Python str.splitlines with keepends = False. -/
def pySplitlines (s : Chars) : List Chars := splitlinesAux [] s

/-! Model of src/extract.py -/

/-- EmailData models the per-email dictionary built by parse_mbox
(src/extract.py line 34): an insertion-ordered header mapping and a body
string. -/
structure EmailData where
  headers : List (Chars × Chars)
  body : Chars
  deriving DecidableEq

/-- ParseResult packages the return value of parse_mbox together with
whether the diagnostic at src/extract.py line 27 was printed. -/
structure ParseResult where
  emails : List EmailData
  printedNoEmails : Bool
  deriving DecidableEq

/-- fromMarker is the five character mbox envelope marker F, r, o, m,
space. -/
def fromMarker : Chars := strL "From "

/-- isFromAt tests whether a character sequence begins with the envelope
marker, as matched by the pattern at src/extract.py line 20. -/
def isFromAt (s : Chars) : Bool := fromMarker.isPrefixOf s

/-- splitFromAux scans the input accumulating the current part (reversed);
a new part starts immediately after a line feed when the remaining text
begins with the envelope marker.  This embeds the multiline lookahead
split at src/extract.py line 20, which cuts before every line that starts
with the marker at column zero. -/
def splitFromAux (acc : Chars) : Chars → List Chars
  | [] => [acc.reverse]
  | c :: rest =>
    if c = '\n' && isFromAt rest then
      (acc.reverse ++ ['\n']) :: splitFromAux [] rest
    else splitFromAux (c :: acc) rest

/-- email_parts embeds src/extract.py lines 20 through 24: the lookahead
split (with an empty first part when the text itself starts with the
marker, as re.split produces) followed by the pop of a first part that is
empty or all whitespace. -/
def email_parts (s : Chars) : List Chars :=
  let parts := if isFromAt s then [] :: splitFromAux [] s else splitFromAux [] s
  match parts with
  | p :: rest => if pyStrip p = [] then rest else parts
  | [] => parts

/-- containsFromAfterNl tests for an envelope marker right after some line
feed in the text. -/
def containsFromAfterNl : Chars → Bool
  | [] => false
  | c :: rest => (c = '\n' && isFromAt rest) || containsFromAfterNl rest

/-- containsFromAnchor tests whether the text has any line that begins
with the envelope marker at column zero (at the start of the text or right
after a line feed). -/
def containsFromAnchor (s : Chars) : Bool :=
  isFromAt s || containsFromAfterNl s

/-- splitHB embeds the loop at src/extract.py lines 45 through 65 applied
to the lines after the envelope line: lines are header lines until the
first line that is empty after stripping; that line is discarded and every
later line belongs to the body. -/
def splitHB : List Chars → List Chars × List Chars
  | [] => ([], [])
  | l :: rest =>
    if pyStrip l = [] then ([], rest)
    else
      let p := splitHB rest
      (l :: p.1, p.2)

/-- isKeyChar models the regex class of word characters and hyphen in the
header pattern at src/extract.py line 78.  The Python class also admits
letters and digits beyond ASCII; the claims settled here do not depend on
characters outside ASCII. -/
def isKeyChar (c : Char) : Bool :=
  c.isAlpha || c.isDigit || c = '_' || c = '-'

/-- matchHeader embeds re.match applied to the pattern of key characters,
a colon, optional whitespace and the rest of the line (src/extract.py
line 78).  It returns the key group and the second group: the characters
after the greedy whitespace run, up to a line feed. -/
def matchHeader (l : Chars) : Option (Chars × Chars) :=
  if (l.takeWhile isKeyChar).isEmpty then none
  else
    match l.dropWhile isKeyChar with
    | [] => none
    | d :: rest2 =>
      if d = ':' then
        some (l.takeWhile isKeyChar,
              (rest2.dropWhile isPySpace).takeWhile (fun c => c != '\n'))
      else none

/-- isContStart tests whether a line starts with a space or tab character,
the continuation test at src/extract.py line 71. -/
def isContStart (l : Chars) : Bool :=
  match l with
  | [] => false
  | c :: _ => c = ' ' || c = '\t'

/-- containsKey models the Python membership test on the header
dictionary. -/
def containsKey (hs : List (Chars × Chars)) (k : Chars) : Bool :=
  hs.any (fun p => p.1 == k)

/-- appendToKey models appending text to the value stored under a key of
the header dictionary (src/extract.py line 74). -/
def appendToKey (hs : List (Chars × Chars)) (k : Chars) (ex : Chars) :
    List (Chars × Chars) :=
  hs.map (fun p => if p.1 == k then (p.1, p.2 ++ ex) else p)

/-- HState is the state of the header parsing loop: the header dictionary
built so far and the current key used for continuation tracking. -/
structure HState where
  headers : List (Chars × Chars)
  currentKey : Option Chars
  deriving DecidableEq

/-- headerStep embeds one iteration of the header loop at src/extract.py
lines 69 through 89: a nonempty line starting with space or tab appends
its stripped content (after a line feed) to the value of the current key
when that key is set and present; otherwise the line must match the header
pattern, and a matching key not yet present is stored (first occurrence
wins) and becomes the current key; every other line is dropped. -/
def headerStep (st : HState) (line : Chars) : HState :=
  if (!line.isEmpty) && isContStart line then
    match st.currentKey with
    | some k =>
      if (!k.isEmpty) && containsKey st.headers k then
        { st with headers := appendToKey st.headers k ('\n' :: pyStrip line) }
      else st
    | none => st
  else
    match matchHeader line with
    | some kv =>
      if containsKey st.headers kv.1 then st
      else { headers := st.headers ++ [(kv.1, pyStrip kv.2)], currentKey := some kv.1 }
    | none => st

/-- parseHeaders folds headerStep over the header lines starting from the
empty dictionary and no current key. -/
def parseHeaders (lines : List Chars) : HState :=
  lines.foldl headerStep ⟨[], none⟩

/-- joinNl models joining lines with the line feed separator
(src/extract.py line 92). -/
def joinNl : List Chars → Chars
  | [] => []
  | [l] => l
  | l :: ls => l ++ '\n' :: joinNl ls

/-- parseSegLines processes the lines of one segment after the envelope
line: split into header block and body lines, parse the header block, join
the body lines. -/
def parseSegLines (ls : List Chars) : EmailData :=
  let p := splitHB ls
  { headers := (parseHeaders p.1).headers, body := joinNl p.2 }

/-- processSegment embeds the per-part treatment at src/extract.py lines
30 through 93: a part that is all whitespace or has no lines is skipped,
otherwise the first line (the envelope line) is discarded and the rest is
parsed into one record. -/
def processSegment (seg : Chars) : Option EmailData :=
  if pyStrip seg = [] then none
  else
    match pySplitlines seg with
    | [] => none
    | _ :: rest => some (parseSegLines rest)

/-- segRecord is the record produced from a segment that is actually
processed: the parse of its lines after the envelope line. -/
def segRecord (seg : Chars) : EmailData :=
  parseSegLines (pySplitlines seg).tail

/-- parse_mbox embeds the function of the same name, src/extract.py lines
5 through 95: split into parts, pop a leading whitespace part, print the
no-emails diagnostic and return the empty list when no parts remain,
otherwise emit one record per nonempty part in source order. -/
def parse_mbox (content : Chars) : ParseResult :=
  let parts := email_parts content
  match parts with
  | [] => { emails := [], printedNoEmails := true }
  | _ => { emails := parts.filterMap processSegment, printedNoEmails := false }

/-! Model of src/jsonTOeml.py -/

/-- isStripChar models the character class removed by the first
substitution of sanitize_filename (src/jsonTOeml.py line 17): backslash,
slash, asterisk, question mark, colon, double quote, less than, greater
than, vertical bar. -/
def isStripChar (c : Char) : Bool :=
  c.toNat = 92 || c = '/' || c = '*' || c = '?' || c = ':' ||
  c.toNat = 34 || c = '<' || c = '>' || c = '|'

/-- collapseWsAux replaces every maximal run of whitespace by a single
underscore; the flag records whether the previous character was part of a
whitespace run already replaced. -/
def collapseWsAux (prevWs : Bool) : Chars → Chars
  | [] => []
  | c :: rest =>
    if isPySpace c then
      if prevWs then collapseWsAux true rest
      else '_' :: collapseWsAux true rest
    else c :: collapseWsAux false rest

/-- collapseWs models the second substitution of sanitize_filename
(src/jsonTOeml.py line 18): each whitespace run becomes one underscore. -/
def collapseWs (s : Chars) : Chars := collapseWsAux false s

/-- sanitize_filename embeds the function of the same name,
src/jsonTOeml.py lines 5 through 20: an empty input maps to the empty
string; otherwise remove the invalid characters, collapse whitespace runs
to underscores, and truncate to 200 characters. -/
def sanitize_filename (s : Chars) : Chars :=
  if s.isEmpty then []
  else (collapseWs (s.filter (fun c => !isStripChar c))).take 200

/-- JVal models a value produced by json.load: the argument universe of
convert_json_to_eml.  Numeric values are modeled as integers; the claims
settled here do not involve fractional numbers. -/
inductive JVal where
  | null : JVal
  | bool : Bool → JVal
  | num : Int → JVal
  | str : Chars → JVal
  | arr : List JVal → JVal
  | obj : List (Chars × JVal) → JVal

/-- jTruthy models Python truthiness on a JSON-decoded value. -/
def jTruthy : JVal → Bool
  | .null => false
  | .bool b => b
  | .num n => n != 0
  | .str s => !s.isEmpty
  | .arr xs => !xs.isEmpty
  | .obj fs => !fs.isEmpty

/-- jlookup models indexing a JSON-decoded dictionary; keys are unique
after json.load, so the first matching entry is the only one. -/
def jlookup (fs : List (Chars × JVal)) (k : Chars) : Option JVal :=
  match fs with
  | [] => none
  | p :: rest => if p.1 == k then some p.2 else jlookup rest k

/-- pyQuote picks the quote character Python repr uses for a string: a
double quote when the string contains a single quote but no double quote,
otherwise a single quote. -/
def pyQuote (s : Chars) : Char :=
  if s.contains (Char.ofNat 39) && !(s.contains (Char.ofNat 34))
  then Char.ofNat 34 else Char.ofNat 39

/-- pyEscape escapes one character for Python repr of a string: the
backslash, the chosen quote, and the common control characters.  Further
escaping of rare control characters is outside the scope needed by the
claims. -/
def pyEscape (q c : Char) : Chars :=
  if c.toNat = 92 then [Char.ofNat 92, Char.ofNat 92]
  else if c = q then [Char.ofNat 92, q]
  else if c = '\n' then [Char.ofNat 92, 'n']
  else if c = '\r' then [Char.ofNat 92, 'r']
  else if c = '\t' then [Char.ofNat 92, 't']
  else [c]

/-- pyReprStr models Python repr of a string value. -/
def pyReprStr (s : Chars) : Chars :=
  let q := pyQuote s
  q :: (s.flatMap (pyEscape q) ++ [q])

mutual

/-- pyRepr models Python repr of a JSON-decoded value. -/
def pyRepr : JVal → Chars
  | .null => strL "None"
  | .bool b => if b then strL "True" else strL "False"
  | .num n => (toString n).data
  | .str s => pyReprStr s
  | .arr xs => '[' :: (joinCommaV xs ++ [']'])
  | .obj fs => Char.ofNat 123 :: (joinCommaF fs ++ [Char.ofNat 125])

/-- joinCommaV renders list elements separated by comma and space. -/
def joinCommaV : List JVal → Chars
  | [] => []
  | [x] => pyRepr x
  | x :: xs => pyRepr x ++ (',' :: ' ' :: joinCommaV xs)

/-- joinCommaF renders dictionary items separated by comma and space. -/
def joinCommaF : List (Chars × JVal) → Chars
  | [] => []
  | [(k, v)] => pyReprStr k ++ (':' :: ' ' :: pyRepr v)
  | (k, v) :: fs =>
    (pyReprStr k ++ (':' :: ' ' :: pyRepr v)) ++ (',' :: ' ' :: joinCommaF fs)

end

/-- pyStr models the Python str builtin on a JSON-decoded value, as used
by the f-strings of convert_json_to_eml: a string is itself, every other
value renders as its repr. -/
def pyStr (v : JVal) : Chars :=
  match v with
  | .str s => s
  | v => pyRepr v

/-- hashKey is the header name X-CCC-HASH checked at src/jsonTOeml.py
line 90. -/
def hashKey : Chars := strL "X-CCC-HASH"

/-- subjectKey is the header name Subject checked at src/jsonTOeml.py
line 92. -/
def subjectKey : Chars := strL "Subject"

/-- headersKey is the record field name holding the header mapping. -/
def headersKey : Chars := strL "headers"

/-- bodyKey is the record field name holding the body. -/
def bodyKey : Chars := strL "body"

/-- natStr models the decimal rendering of a number inside an f-string. -/
def natStr (n : Nat) : Chars := (Nat.repr n).data

/-- subjBase embeds the Subject branch at src/jsonTOeml.py lines 92
through 93: when the Subject header is present and truthy, its sanitized
form is the base; applying sanitize_filename (re.sub) to a value that is
not a string raises an uncaught TypeError, modeled as the error case. -/
def subjBase (hfs : List (Chars × JVal)) : Except Unit JVal :=
  match jlookup hfs subjectKey with
  | some v =>
    if jTruthy v then
      match v with
      | .str s => .ok (.str (sanitize_filename s))
      | _ => .error ()
    else .ok (.str [])
  | none => .ok (.str [])

/-- deriveBase embeds src/jsonTOeml.py lines 89 through 93: the truthy
X-CCC-HASH value is the base when present, otherwise the Subject branch
decides; with neither, the base is the empty string. -/
def deriveBase (hfs : List (Chars × JVal)) : Except Unit JVal :=
  match jlookup hfs hashKey with
  | some v => if jTruthy v then .ok v else subjBase hfs
  | none => subjBase hfs

/-- emlFilename embeds src/jsonTOeml.py lines 89 through 98: a falsy base
is replaced by the positional fallback built from the one-based index, and
the eml extension is appended to the f-string rendering of the base. -/
def emlFilename (hfs : List (Chars × JVal)) (i : Nat) : Except Unit Chars :=
  match deriveBase hfs with
  | .error e => .error e
  | .ok b =>
    .ok ((if jTruthy b then pyStr b else strL "email_" ++ natStr (i + 1))
         ++ strL ".eml")

/-- emlContent embeds src/jsonTOeml.py lines 70 through 86: one line per
header item whose value is a string, one line per element of a list value,
nothing for other value shapes; then a blank line; then the body rendered
as a string. -/
def emlContent (hfs : List (Chars × JVal)) (body : JVal) : Chars :=
  hfs.flatMap (fun p =>
    match p.2 with
    | .str s => p.1 ++ (':' :: ' ' :: (s ++ ['\n']))
    | .arr xs => xs.flatMap (fun x => p.1 ++ (':' :: ' ' :: (pyStr x ++ ['\n'])))
    | _ => [])
  ++ '\n' :: pyStr body

/-- ItemStep is the outcome of one iteration of the export loop: a file is
written, the item is skipped with a printed warning, or an uncaught
TypeError aborts the whole run. -/
inductive ItemStep where
  | written : Chars → Chars → ItemStep
  | skipped : ItemStep
  | crashed : ItemStep

/-- processItem embeds one iteration of the loop at src/jsonTOeml.py lines
58 through 108: an element that is not a dictionary is skipped with a
warning; the headers field defaults to an empty dictionary and the body
field to the empty string; a headers field that is not a dictionary skips
the element with a warning; otherwise the content and file name are built
and the file is written (the write itself is modeled as succeeding, since
write failures depend on the environment and not on the input). -/
def processItem (i : Nat) (e : JVal) : ItemStep :=
  match e with
  | .obj fs =>
    match (jlookup fs headersKey).getD (.obj []) with
    | .obj hfs =>
      match emlFilename hfs i with
      | .ok name => .written name (emlContent hfs ((jlookup fs bodyKey).getD (.str [])))
      | .error _ => .crashed
    | _ => .skipped
  | _ => .skipped

/-- ConvertResult collects the files written in order, the number of
printed per-item warnings, and whether an uncaught error aborted the
loop. -/
structure ConvertResult where
  files : List (Chars × Chars)
  warnings : Nat
  crashed : Bool
  deriving DecidableEq

/-- convertAux runs the export loop from a given enumeration index. -/
def convertAux (i : Nat) : List JVal → ConvertResult
  | [] => { files := [], warnings := 0, crashed := false }
  | e :: rest =>
    match processItem i e with
    | .written n c =>
      let r := convertAux (i + 1) rest
      { files := (n, c) :: r.files, warnings := r.warnings, crashed := r.crashed }
    | .skipped =>
      let r := convertAux (i + 1) rest
      { files := r.files, warnings := r.warnings + 1, crashed := r.crashed }
    | .crashed => { files := [], warnings := 0, crashed := true }

/-- convert_json_to_eml embeds the loop of the function of the same name
(src/jsonTOeml.py lines 56 through 110) applied to an already decoded
top-level array. -/
def convert_json_to_eml (doc : List JVal) : ConvertResult := convertAux 0 doc

/-- isStrVal tests whether a JSON value is a string. -/
def isStrVal : JVal → Bool
  | .str _ => true
  | _ => false

/-- validRecord describes a well-shaped record per the structured-document
contract: an object whose headers field, when present, is an object with
string values (the shape the parser pipeline produces). -/
def validRecord : JVal → Bool
  | .obj fs =>
    match jlookup fs headersKey with
    | some (.obj hfs) => hfs.all (fun p => isStrVal p.2)
    | some _ => false
    | none => true
  | _ => false

/-- badRecord describes the malformed elements named by the spec: not an
object, or an object whose headers field is present and not an object. -/
def badRecord : JVal → Bool
  | .obj fs =>
    match jlookup fs headersKey with
    | some (.obj _) => false
    | some _ => true
    | none => false
  | _ => true

/-- hashFalsyOrMissing holds when the X-CCC-HASH header is absent or its
value is falsy, so the code falls through to the Subject branch. -/
def hashFalsyOrMissing (hfs : List (Chars × JVal)) : Bool :=
  match jlookup hfs hashKey with
  | none => true
  | some v => !jTruthy v

/-- subjFalsyOrSanEmpty holds when the Subject header is absent, falsy, or
a string whose sanitized form is empty, so the positional fallback is
used. -/
def subjFalsyOrSanEmpty (hfs : List (Chars × JVal)) : Bool :=
  match jlookup hfs subjectKey with
  | none => true
  | some v =>
    if jTruthy v then
      match v with
      | .str s => (sanitize_filename s).isEmpty
      | _ => false
    else true

/-! Model of the input decoding at src/extract.py line 114 -/

/-- contB tests for a UTF-8 continuation byte. -/
def contB (b : Nat) : Bool := 0x80 ≤ b && b < 0xC0

/-- lead3ok gives the admissible second byte range after a three byte
lead, excluding overlong forms and surrogates as the Python utf-8 codec
does. -/
def lead3ok (b b1 : Nat) : Bool :=
  if b = 0xE0 then 0xA0 ≤ b1 && b1 < 0xC0
  else if b = 0xED then 0x80 ≤ b1 && b1 < 0xA0
  else contB b1

/-- lead4ok gives the admissible second byte range after a four byte lead,
excluding overlong forms and code points beyond the Unicode maximum. -/
def lead4ok (b b1 : Nat) : Bool :=
  if b = 0xF0 then 0x90 ≤ b1 && b1 < 0xC0
  else if b = 0xF4 then 0x80 ≤ b1 && b1 < 0x90
  else contB b1

/-- utf8Step examines one lead byte together with the bytes after it and
returns the decoding token (some code point for a well-formed sequence,
none for a maximal invalid subpart) and how many of the following bytes
the step consumed, following the Python utf-8 codec. -/
def utf8Step (b : Nat) (bs : List Nat) : Option Nat × Nat :=
  if b < 0x80 then (some b, 0)
  else if b < 0xC2 then (none, 0)
  else if b < 0xE0 then
    match bs with
    | [] => (none, 0)
    | b1 :: _ =>
      if contB b1 then (some ((b - 0xC0) * 0x40 + (b1 - 0x80)), 1)
      else (none, 0)
  else if b < 0xF0 then
    match bs with
    | [] => (none, 0)
    | b1 :: bs1 =>
      if lead3ok b b1 then
        match bs1 with
        | [] => (none, 1)
        | b2 :: _ =>
          if contB b2 then
            (some (((b - 0xE0) * 0x40 + (b1 - 0x80)) * 0x40 + (b2 - 0x80)), 2)
          else (none, 1)
      else (none, 0)
  else if b < 0xF5 then
    match bs with
    | [] => (none, 0)
    | b1 :: bs1 =>
      if lead4ok b b1 then
        match bs1 with
        | [] => (none, 1)
        | b2 :: bs2 =>
          if contB b2 then
            match bs2 with
            | [] => (none, 2)
            | b3 :: _ =>
              if contB b3 then
                (some ((((b - 0xF0) * 0x40 + (b1 - 0x80)) * 0x40 + (b2 - 0x80)) * 0x40
                       + (b3 - 0x80)), 3)
              else (none, 2)
          else (none, 1)
      else (none, 0)
  else (none, 0)

/-- utf8TokensAux is the decoding loop with explicit fuel; every step
consumes at least the lead byte, so fuel equal to the list length always
suffices. -/
def utf8TokensAux : Nat → List Nat → List (Option Nat)
  | 0, _ => []
  | _, [] => []
  | fuel + 1, b :: bs => (utf8Step b bs).1 :: utf8TokensAux fuel (bs.drop (utf8Step b bs).2)

/-- utf8Tokens decodes a byte list into a token list: some code point for
each well-formed sequence, none for each maximal invalid subpart, in input
order. -/
def utf8Tokens (bs : List Nat) : List (Option Nat) := utf8TokensAux bs.length bs

/-- tokOut renders one decoding token given the per-error output. -/
def tokOut (errOut : List Nat) (o : Option Nat) : List Nat :=
  match o with
  | some c => [c]
  | none => errOut

/-- utf8DecodeAux is the decoding loop with explicit fuel, emitting errOut
at every decoding error. -/
def utf8DecodeAux (errOut : List Nat) : Nat → List Nat → List Nat
  | 0, _ => []
  | _, [] => []
  | fuel + 1, b :: bs =>
    tokOut errOut (utf8Step b bs).1 ++ utf8DecodeAux errOut fuel (bs.drop (utf8Step b bs).2)

/-- utf8DecodeWith decodes a byte list to code points, emitting errOut at
every decoding error; errOut is empty for the ignore error handler and a
single replacement character for the replace error handler. -/
def utf8DecodeWith (errOut : List Nat) (bs : List Nat) : List Nat :=
  utf8DecodeAux errOut bs.length bs

/-- replOut is the output of the replace error handler for one error: the
replacement character. -/
def replOut : List Nat := [0xFFFD]

/-- mboxDecode embeds the file read at src/extract.py line 114: utf-8
decoding with the ignore error handler, which contributes nothing at each
decoding error. -/
def mboxDecode (bs : List Nat) : List Nat := utf8DecodeWith [] bs

/-! Lemmas about sanitize_filename -/

theorem collapseWsAux_mem (s : Chars) :
    ∀ (b : Bool), ∀ c ∈ collapseWsAux b s, c = '_' ∨ (isPySpace c = false ∧ c ∈ s) := by
  induction s with
  | nil => intro b c hc; simp [collapseWsAux] at hc
  | cons x xs ih =>
    intro b c hc
    simp only [collapseWsAux] at hc
    by_cases hx : isPySpace x
    · simp only [hx, if_true] at hc
      cases b with
      | true =>
        rcases ih true c hc with h | ⟨h1, h2⟩
        · exact Or.inl h
        · exact Or.inr ⟨h1, List.mem_cons_of_mem _ h2⟩
      | false =>
        rcases List.mem_cons.mp hc with h | h
        · exact Or.inl h
        · rcases ih true c h with h' | ⟨h1, h2⟩
          · exact Or.inl h'
          · exact Or.inr ⟨h1, List.mem_cons_of_mem _ h2⟩
    · simp only [hx, if_false] at hc
      rcases List.mem_cons.mp hc with h | h
      · subst h
        exact Or.inr ⟨by simpa using hx, List.mem_cons_self _ _⟩
      · rcases ih false c h with h' | ⟨h1, h2⟩
        · exact Or.inl h'
        · exact Or.inr ⟨h1, List.mem_cons_of_mem _ h2⟩

theorem collapseWsAux_id (s : Chars) (h : ∀ c ∈ s, isPySpace c = false) :
    ∀ b, collapseWsAux b s = s := by
  induction s with
  | nil => intro b; rfl
  | cons x xs ih =>
    intro b
    have hx : isPySpace x = false := h x (List.mem_cons_self _ _)
    simp only [collapseWsAux, hx, if_false, Bool.false_eq_true]
    rw [ih (fun c hc => h c (List.mem_cons_of_mem _ hc)) false]

theorem sanitize_filename_mem (s : Chars) :
    ∀ c ∈ sanitize_filename s, isStripChar c = false ∧ isPySpace c = false := by
  intro c hc
  unfold sanitize_filename at hc
  by_cases hs : s.isEmpty
  · simp [hs] at hc
  · simp only [hs, if_false, Bool.false_eq_true] at hc
    have hc2 : c ∈ collapseWs (s.filter (fun c => !isStripChar c)) :=
      List.mem_of_mem_take hc
    rcases collapseWsAux_mem _ false c hc2 with h | ⟨h1, h2⟩
    · subst h; exact ⟨by decide, by decide⟩
    · refine ⟨?_, h1⟩
      have := List.of_mem_filter h2
      simpa using this

theorem sanitize_filename_length (s : Chars) : (sanitize_filename s).length ≤ 200 := by
  unfold sanitize_filename
  by_cases hs : s.isEmpty
  · simp [hs]
  · simp only [hs, if_false, Bool.false_eq_true]
    exact List.length_take_le _ _

theorem sanitize_filename_idem (s : Chars) :
    sanitize_filename (sanitize_filename s) = sanitize_filename s := by
  by_cases h0 : (sanitize_filename s).isEmpty
  · rw [List.isEmpty_iff] at h0
    rw [h0]; rfl
  · have hmem := sanitize_filename_mem s
    have hfil : (sanitize_filename s).filter (fun c => !isStripChar c) = sanitize_filename s :=
      List.filter_eq_self.mpr (fun c hc => by simp [(hmem c hc).1])
    have hcol : collapseWs ((sanitize_filename s).filter (fun c => !isStripChar c))
        = sanitize_filename s := by
      rw [hfil]
      exact collapseWsAux_id _ (fun c hc => (hmem c hc).2) false
    have hlen := sanitize_filename_length s
    conv_lhs => rw [sanitize_filename]
    simp only [h0, if_false, Bool.false_eq_true]
    rw [hcol]
    exact List.take_of_length_le hlen

/-- C10: sanitize_filename is idempotent; its output contains none of the
stripped characters, contains no whitespace, and has length at most 200,
so a second application leaves the result unchanged. -/
theorem claim_C10_sanitize_idempotent (s : Chars) :
    sanitize_filename (sanitize_filename s) = sanitize_filename s
    ∧ (∀ c ∈ sanitize_filename s, isStripChar c = false ∧ isPySpace c = false)
    ∧ (sanitize_filename s).length ≤ 200 :=
  ⟨sanitize_filename_idem s, sanitize_filename_mem s, sanitize_filename_length s⟩

/-- C10 witness: the idempotence and character properties evaluated at a
concrete input. -/
theorem claim_C10_witness :
    sanitize_filename (sanitize_filename (strL "a b:c")) = sanitize_filename (strL "a b:c")
    ∧ (isStripChar 'a' = false ∧ isPySpace 'a' = false)
    ∧ (sanitize_filename (strL "a b:c")).length ≤ 200 :=
  ⟨(claim_C10_sanitize_idempotent (strL "a b:c")).1,
   (claim_C10_sanitize_idempotent (strL "a b:c")).2.1 'a' (by decide),
   (claim_C10_sanitize_idempotent (strL "a b:c")).2.2⟩

/-! Lemmas about the input decoding -/

theorem utf8DecodeAux_eq_tokens (errOut : List Nat) :
    ∀ (fuel : Nat) (bs : List Nat),
      utf8DecodeAux errOut fuel bs = (utf8TokensAux fuel bs).flatMap (tokOut errOut) := by
  intro fuel
  induction fuel with
  | zero => intro bs; cases bs <;> rfl
  | succ n ih =>
    intro bs
    cases bs with
    | nil => rfl
    | cons b rest =>
      simp only [utf8DecodeAux, utf8TokensAux, List.flatMap_cons, ih]

theorem utf8DecodeWith_eq_tokens (errOut : List Nat) (bs : List Nat) :
    utf8DecodeWith errOut bs = (utf8Tokens bs).flatMap (tokOut errOut) :=
  utf8DecodeAux_eq_tokens errOut bs.length bs

theorem flatMap_tokOut_nil_length (toks : List (Option Nat)) :
    (toks.flatMap (tokOut [])).length ≤ (toks.flatMap (tokOut replOut)).length := by
  induction toks with
  | nil => simp
  | cons o rest ih =>
    cases o with
    | none =>
      have hr : replOut.length = 1 := rfl
      simp only [List.flatMap_cons, List.length_append, tokOut, List.length_nil]
      omega
    | some c =>
      simp only [List.flatMap_cons, List.length_append, tokOut,
        List.length_cons, List.length_nil]
      omega

/-- C3 counterexample: the claim says undecodable bytes are substituted
with a replacement character.  The code opens the mbox file with the
ignore error handler (src/extract.py line 114), which drops such bytes:
on the byte sequence 41 FF 42 the code decodes to the two code points 41
and 42, while replacement would give 41 FFFD 42. -/
theorem claim_C3_counterexample :
    mboxDecode [0x41, 0xFF, 0x42] = [0x41, 0x42]
    ∧ utf8DecodeWith replOut [0x41, 0xFF, 0x42] = [0x41, 0xFFFD, 0x42]
    ∧ mboxDecode [0x41, 0xFF, 0x42] ≠ utf8DecodeWith replOut [0x41, 0xFF, 0x42] := by
  refine ⟨rfl, rfl, ?_⟩
  decide

/-- C3 amended: when the mbox input file is read, bytes that cannot be
decoded are silently dropped (the ignore error handler) rather than
causing the read to fail or being replaced: the decode of the code equals
the token sequence with every error contributing nothing, and its output
is never longer than the replace decoding. -/
theorem claim_C3_amended (bs : List Nat) :
    mboxDecode bs = (utf8Tokens bs).flatMap (tokOut [])
    ∧ (mboxDecode bs).length ≤ (utf8DecodeWith replOut bs).length := by
  constructor
  · exact utf8DecodeWith_eq_tokens [] bs
  · rw [utf8DecodeWith_eq_tokens replOut bs]
    rw [show mboxDecode bs = utf8DecodeWith [] bs from rfl, utf8DecodeWith_eq_tokens [] bs]
    exact flatMap_tokOut_nil_length _

/-! Lemmas about the mbox split and parse -/

theorem isFromAt_shape {s : Chars} (h : isFromAt s = true) :
    ∃ t, s = 'F' :: 'r' :: 'o' :: 'm' :: ' ' :: t := by
  have h2 : fromMarker <+: s := List.isPrefixOf_iff_prefix.mp h
  obtain ⟨t, ht⟩ := h2
  exact ⟨t, by rw [← ht]; rfl⟩

theorem isFromAt_append (u : Chars) :
    isFromAt ('F' :: 'r' :: 'o' :: 'm' :: ' ' :: u) = true :=
  List.isPrefixOf_iff_prefix.mpr ⟨u, rfl⟩

theorem pyStrip_eq_nil_imp (s : Chars) (h : pyStrip s = []) :
    ∀ c ∈ s, isPySpace c = true := by
  unfold pyStrip at h
  have h1 : (s.dropWhile isPySpace).reverse.dropWhile isPySpace = [] := by
    rwa [List.reverse_eq_nil_iff] at h
  have h3 : ∀ c ∈ s.dropWhile isPySpace, isPySpace c = true := by
    intro c hc
    exact List.dropWhile_eq_nil_iff.mp h1 c (List.mem_reverse.mpr hc)
  intro c hc
  rw [← List.takeWhile_append_dropWhile (p := isPySpace) (l := s)] at hc
  rcases List.mem_append.mp hc with h4 | h4
  · exact List.mem_takeWhile_imp h4
  · exact h3 c h4

theorem isFromAt_all_space (s : Chars) (h : ∀ c ∈ s, isPySpace c = true) :
    isFromAt s = false := by
  cases hq : isFromAt s with
  | false => rfl
  | true =>
    obtain ⟨t, ht⟩ := isFromAt_shape hq
    subst ht
    exact absurd (h 'F' (List.mem_cons_self _ _)) (by decide)

theorem containsFromAfterNl_all_space (s : Chars) (h : ∀ c ∈ s, isPySpace c = true) :
    containsFromAfterNl s = false := by
  induction s with
  | nil => rfl
  | cons c rest ih =>
    have hrest : ∀ x ∈ rest, isPySpace x = true :=
      fun x hx => h x (List.mem_cons_of_mem _ hx)
    simp [containsFromAfterNl, isFromAt_all_space rest hrest, ih hrest]

theorem splitFromAux_no_anchor (s : Chars) (h : containsFromAfterNl s = false) :
    ∀ acc, splitFromAux acc s = [acc.reverse ++ s] := by
  induction s with
  | nil => intro acc; simp [splitFromAux]
  | cons c rest ih =>
    intro acc
    rw [containsFromAfterNl] at h
    obtain ⟨h1, h2⟩ := Bool.or_eq_false_iff.mp h
    rw [splitFromAux, if_neg (by simp [h1])]
    rw [ih h2 (c :: acc)]
    simp

theorem splitFromAux_scan (pre : Chars) (hpre : ∀ c ∈ pre, c ≠ '\n') :
    ∀ acc r, splitFromAux acc (pre ++ r) = splitFromAux (pre.reverse ++ acc) r := by
  induction pre with
  | nil => intro acc r; simp
  | cons c p ih =>
    intro acc r
    have hc : c ≠ '\n' := hpre c (List.mem_cons_self _ _)
    rw [List.cons_append, splitFromAux, if_neg (by simp [hc])]
    rw [ih (fun x hx => hpre x (List.mem_cons_of_mem _ hx)) (c :: acc) r]
    simp

theorem splitFromAux_head (s : Chars) :
    ∀ acc, ∃ u t, splitFromAux acc s = (acc.reverse ++ u) :: t := by
  induction s with
  | nil => intro acc; exact ⟨[], [], by simp [splitFromAux]⟩
  | cons c rest ih =>
    intro acc
    by_cases hb : (c = '\n' && isFromAt rest) = true
    · exact ⟨['\n'], splitFromAux [] rest, by rw [splitFromAux, if_pos hb]⟩
    · obtain ⟨u, t, hu⟩ := ih (c :: acc)
      refine ⟨c :: u, t, ?_⟩
      rw [splitFromAux, if_neg hb, hu]
      simp

theorem splitFromAux_from_head (s : Chars) (h : isFromAt s = true) :
    ∃ p t, splitFromAux [] s = p :: t ∧ isFromAt p = true := by
  obtain ⟨r, hr⟩ := isFromAt_shape h
  subst hr
  have hscan := splitFromAux_scan ('F' :: 'r' :: 'o' :: 'm' :: [' ']) (by decide) [] r
  obtain ⟨u, t, hu⟩ := splitFromAux_head r (('F' :: 'r' :: 'o' :: 'm' :: [' ']).reverse ++ [])
  rw [List.append_nil] at hscan hu
  refine ⟨('F' :: 'r' :: 'o' :: 'm' :: [' ']).reverse.reverse ++ u, t, ?_, ?_⟩
  · exact hscan.trans hu
  · rw [List.reverse_reverse]
    exact isFromAt_append u

theorem splitFromAux_tail_anchored (s : Chars) :
    ∀ acc, ∀ p ∈ (splitFromAux acc s).tail, isFromAt p = true := by
  induction s with
  | nil => intro acc p hp; simp [splitFromAux] at hp
  | cons c rest ih =>
    intro acc p hp
    by_cases hb : (c = '\n' && isFromAt rest) = true
    · rw [splitFromAux, if_pos hb] at hp
      simp only [List.tail_cons] at hp
      have hrest : isFromAt rest = true := by
        rw [Bool.and_eq_true] at hb
        exact hb.2
      obtain ⟨q, t, hq, hqF⟩ := splitFromAux_from_head rest hrest
      rw [hq] at hp
      rcases List.mem_cons.mp hp with h | h
      · subst h; exact hqF
      · exact ih [] p (by rw [hq]; simpa)
    · rw [splitFromAux, if_neg hb] at hp
      exact ih (c :: acc) p hp

set_option maxHeartbeats 1000000 in
theorem splitlinesAux_eq_nil (acc s : Chars) (h : splitlinesAux acc s = []) :
    acc = [] ∧ s = [] := by
  induction acc, s using splitlinesAux.induct with
  | case1 acc hacc => exact ⟨List.isEmpty_iff.mp hacc, rfl⟩
  | case2 acc hacc =>
    rw [splitlinesAux, if_neg hacc] at h
    simp at h
  | case3 acc rest2 ih =>
    simp only [splitlinesAux] at h
    simp at h
  | case4 acc c rest hne hlb ih =>
    simp only [splitlinesAux, hne, hlb] at h
    simp at h
  | case5 acc c rest hne hlb ih =>
    simp only [splitlinesAux, hne, hlb] at h
    exact absurd (ih h).1 (by simp)

theorem pySplitlines_ne_nil (s : Chars) (h : s ≠ []) : pySplitlines s ≠ [] := by
  intro he
  exact h (splitlinesAux_eq_nil [] s he).2

theorem processSegment_eq_some (p : Chars) (h : pyStrip p ≠ []) :
    processSegment p = some (segRecord p) := by
  have hp : p ≠ [] := by intro he; subst he; exact h rfl
  have hl : pySplitlines p ≠ [] := pySplitlines_ne_nil p hp
  unfold processSegment segRecord
  rw [if_neg h]
  cases hls : pySplitlines p with
  | nil => exact absurd hls hl
  | cons a rest => simp

theorem filterMap_eq_map_of_forall {α β : Type} (f : α → Option β) (g : α → β) :
    ∀ l : List α, (∀ x ∈ l, f x = some (g x)) → l.filterMap f = l.map g := by
  intro l
  induction l with
  | nil => intro _; rfl
  | cons x xs ih =>
    intro h
    rw [List.filterMap_cons_some (h x (List.mem_cons_self _ _)), List.map_cons,
      ih (fun y hy => h y (List.mem_cons_of_mem _ hy))]

theorem parse_mbox_eq (content : Chars) :
    parse_mbox content =
      if email_parts content = [] then ⟨[], true⟩
      else ⟨(email_parts content).filterMap processSegment, false⟩ := by
  simp only [parse_mbox]
  cases h : email_parts content with
  | nil => simp
  | cons a t => simp

/-- C1 counterexample: the input hello contains zero From anchored lines,
yet parse_mbox returns one record (parsed from the whole input as a single
segment) and does not print the no-emails diagnostic, contradicting the
claim that such inputs yield an empty record list with the diagnostic. -/
theorem claim_C1_counterexample :
    containsFromAnchor (strL "hello") = false
    ∧ (parse_mbox (strL "hello")).emails ≠ []
    ∧ (parse_mbox (strL "hello")).printedNoEmails = false := by decide

/-- C1 amended: an input that is empty or all whitespace yields the empty
record list and the printed no-emails diagnostic; an input with zero From
anchored lines but some non-whitespace content yields exactly one record
parsed from the entire input treated as a single segment, with no
diagnostic; and every split part beyond the first begins with the
envelope marker, so every record beyond the first originates from a From
anchored segment. -/
theorem claim_C1_amended (s : Chars) :
    (pyStrip s = [] → parse_mbox s = ⟨[], true⟩)
    ∧ (containsFromAnchor s = false → pyStrip s ≠ [] →
        parse_mbox s = ⟨[segRecord s], false⟩)
    ∧ (∀ p ∈ (email_parts s).tail, isFromAt p = true) := by
  refine ⟨?_, ?_, ?_⟩
  · intro h
    have hws := pyStrip_eq_nil_imp s h
    have hF : isFromAt s = false := isFromAt_all_space s hws
    have hA : containsFromAfterNl s = false := containsFromAfterNl_all_space s hws
    have hsplit : splitFromAux [] s = [s] := by
      simpa using splitFromAux_no_anchor s hA []
    have hep : email_parts s = [] := by
      simp [email_parts, hF, hsplit, h]
    rw [parse_mbox_eq, if_pos hep]
  · intro hna hstr
    rw [containsFromAnchor] at hna
    obtain ⟨hF, hA⟩ := Bool.or_eq_false_iff.mp hna
    have hsplit : splitFromAux [] s = [s] := by
      simpa using splitFromAux_no_anchor s hA []
    have hep : email_parts s = [s] := by
      simp [email_parts, hF, hsplit, hstr]
    rw [parse_mbox_eq, hep, if_neg (by simp)]
    rw [List.filterMap_cons_some (processSegment_eq_some s hstr)]
    rfl
  · intro p hp
    rcases hsp : splitFromAux [] s with _ | ⟨a, t⟩
    · obtain ⟨u, t', hu⟩ := splitFromAux_head s []
      rw [hsp] at hu
      exact absurd hu (by simp)
    · have htail : ∀ q ∈ t, isFromAt q = true := by
        intro q hq
        have h2 := splitFromAux_tail_anchored s [] q
        rw [hsp] at h2
        exact h2 (by simpa using hq)
      cases hF : isFromAt s with
      | true =>
        have hep : email_parts s = a :: t := by
          simp [email_parts, hF, hsp, show pyStrip ([] : Chars) = [] from rfl]
        rw [hep] at hp
        exact htail p (by simpa using hp)
      | false =>
        by_cases hstrip : pyStrip a = []
        · have hep : email_parts s = t := by
            simp [email_parts, hF, hsp, hstrip]
          rw [hep] at hp
          exact htail p (List.mem_of_mem_tail hp)
        · have hep : email_parts s = a :: t := by
            simp [email_parts, hF, hsp, hstrip]
          rw [hep] at hp
          exact htail p (by simpa using hp)

/-- C1 amended witness: the empty-after-strip case and the no-anchor case
evaluated at concrete inputs. -/
theorem claim_C1_amended_witness :
    parse_mbox (strL " ") = ⟨[], true⟩
    ∧ parse_mbox (strL "hello") = ⟨[segRecord (strL "hello")], false⟩
    ∧ isFromAt (strL "From b\nY\n") = true :=
  ⟨(claim_C1_amended (strL " ")).1 (by decide),
   (claim_C1_amended (strL "hello")).2.1 (by decide) (by decide),
   (claim_C1_amended (strL "From a\nX\nFrom b\nY\n")).2.2 (strL "From b\nY\n") (by decide)⟩

/-- C7: for an input whose split parts are all From anchored and all have
non-whitespace content, parse_mbox returns exactly one record per part, in
source order. -/
theorem claim_C7_segment_count (content : Chars)
    (h : ∀ p ∈ email_parts content, isFromAt p = true ∧ pyStrip p ≠ []) :
    (parse_mbox content).emails = (email_parts content).map segRecord
    ∧ (parse_mbox content).emails.length = (email_parts content).length := by
  have hmap : (email_parts content).filterMap processSegment
      = (email_parts content).map segRecord :=
    filterMap_eq_map_of_forall _ _ _ (fun p hp => processSegment_eq_some p (h p hp).2)
  rw [parse_mbox_eq]
  by_cases hnil : email_parts content = []
  · rw [if_pos hnil]
    simp [hnil]
  · rw [if_neg hnil]
    refine ⟨hmap, ?_⟩
    show ((email_parts content).filterMap processSegment).length = _
    rw [hmap, List.length_map]

/-- C7 witness: a concrete two segment mbox input yields two records. -/
theorem claim_C7_witness :
    (parse_mbox (strL "From a\nA: b\n\nbody\nFrom c\nC: d\n")).emails.length
      = (email_parts (strL "From a\nA: b\n\nbody\nFrom c\nC: d\n")).length :=
  (claim_C7_segment_count (strL "From a\nA: b\n\nbody\nFrom c\nC: d\n") (by decide)).2

/-- C9: parse_mbox is a total function (the embedding is accepted by the
termination checker and returns a result for every input, never more
records than split parts), and a header line that is neither a
continuation line nor a match of the header pattern leaves the header
state unchanged: it is dropped rather than raising. -/
theorem claim_C9_no_raise (s : Chars) (st : HState) (line : Chars)
    (h : matchHeader line = none ∧ isContStart line = false) :
    headerStep st line = st
    ∧ (parse_mbox s).emails.length ≤ (email_parts s).length := by
  constructor
  · simp only [headerStep, h.1, h.2, Bool.and_false, Bool.false_eq_true, if_false]
  · rw [parse_mbox_eq]
    by_cases hnil : email_parts s = []
    · simp [hnil]
    · rw [if_neg hnil]
      exact List.length_filterMap_le _ _

/-- C9 witness: a line with no colon is dropped by the header loop, and a
concrete input yields no more records than parts. -/
theorem claim_C9_witness :
    headerStep ⟨[], none⟩ (strL "no colon here") = ⟨[], none⟩
    ∧ (parse_mbox (strL "junk")).emails.length ≤ (email_parts (strL "junk")).length :=
  ⟨(claim_C9_no_raise (strL "junk") ⟨[], none⟩ (strL "no colon here") (by decide)).1,
   (claim_C9_no_raise (strL "junk") ⟨[], none⟩ (strL "no colon here") (by decide)).2⟩

/-! Lemmas about header parsing -/

theorem matchHeader_not_cont {l : Chars} {kv : Chars × Chars}
    (h : matchHeader l = some kv) : isContStart l = false := by
  cases l with
  | nil => simp [matchHeader] at h
  | cons c r =>
    cases hq : isContStart (c :: r) with
    | false => rfl
    | true =>
      have hc : c = ' ' ∨ c = '\t' := by
        simpa [isContStart] using hq
      have hk : isKeyChar c = false := by
        rcases hc with h1 | h1 <;> subst h1 <;> decide
      simp [matchHeader, List.takeWhile_cons, hk] at h

theorem matchHeader_key_ne_nil {l k v : Chars}
    (h : matchHeader l = some (k, v)) : k ≠ [] := by
  unfold matchHeader at h
  by_cases hk : (l.takeWhile isKeyChar).isEmpty
  · rw [if_pos hk] at h
    simp at h
  · rw [if_neg hk] at h
    rcases hd : l.dropWhile isKeyChar with _ | ⟨d, rest2⟩ <;> rw [hd] at h
    · simp at h
    · by_cases hdc : d = ':'
      · subst hdc
        simp at h
        obtain ⟨h1, -⟩ := h
        intro he
        exact hk (by rw [h1, he]; rfl)
      · simp [hdc] at h

theorem headerStep_cont_no_key (hs : List (Chars × Chars)) (c : Chars)
    (hne : c ≠ []) (hcs : isContStart c = true) :
    headerStep ⟨hs, none⟩ c = ⟨hs, none⟩ := by
  unfold headerStep
  have hcond : (!c.isEmpty && isContStart c) = true := by
    cases c with
    | nil => exact absurd rfl hne
    | cons a r => simp [hcs]
  rw [if_pos hcond]

theorem headerStep_existing (st : HState) (line k v : Chars)
    (hm : matchHeader line = some (k, v)) (hk : containsKey st.headers k = true) :
    headerStep st line = st := by
  have hcont := matchHeader_not_cont hm
  unfold headerStep
  rw [hcont, Bool.and_false]
  simp only [Bool.false_eq_true, if_false, hm, hk, if_true]

theorem foldl_headerStep_conts (k : Chars) (hk : k ≠ []) :
    ∀ (conts : List Chars) (val : Chars),
      (∀ c ∈ conts, c ≠ [] ∧ isContStart c = true) →
      List.foldl headerStep ⟨[(k, val)], some k⟩ conts
        = ⟨[(k, val ++ conts.flatMap (fun c => '\n' :: pyStrip c))], some k⟩ := by
  intro conts
  induction conts with
  | nil => intro val _; simp
  | cons c cs ih =>
    intro val h
    obtain ⟨hne, hcs⟩ := h c (List.mem_cons_self _ _)
    rw [List.foldl_cons]
    have hcempty : c.isEmpty = false := by
      cases c with
      | nil => exact absurd rfl hne
      | cons a r => rfl
    have hkempty : k.isEmpty = false := by
      cases k with
      | nil => exact absurd rfl hk
      | cons a r => rfl
    have hstep : headerStep ⟨[(k, val)], some k⟩ c
        = ⟨[(k, val ++ ('\n' :: pyStrip c))], some k⟩ := by
      simp [headerStep, hcempty, hcs, hkempty, containsKey, appendToKey]
    rw [hstep, ih (val ++ ('\n' :: pyStrip c)) (fun x hx => h x (List.mem_cons_of_mem _ hx))]
    simp [List.flatMap_cons, List.append_assoc]

/-- C4: a header line followed by continuation lines (nonempty, starting
with space or tab) folds into a single mapping entry whose value is the
stripped header value followed by each stripped continuation, separated by
line feeds; and a continuation line arriving when no current key has been
established leaves the header state unchanged (it is dropped). -/
theorem claim_C4_continuation_folding (hline : Chars) (conts : List Chars)
    (k v : Chars) (hs : List (Chars × Chars)) (c0 : Chars)
    (hm : matchHeader hline = some (k, v))
    (hconts : ∀ c ∈ conts, c ≠ [] ∧ isContStart c = true)
    (hc0 : c0 ≠ [] ∧ isContStart c0 = true) :
    parseHeaders (hline :: conts)
      = ⟨[(k, pyStrip v ++ conts.flatMap (fun c => '\n' :: pyStrip c))], some k⟩
    ∧ headerStep ⟨hs, none⟩ c0 = ⟨hs, none⟩ := by
  constructor
  · unfold parseHeaders
    rw [List.foldl_cons]
    have hstep0 : headerStep ⟨[], none⟩ hline = ⟨[(k, pyStrip v)], some k⟩ := by
      simp [headerStep, matchHeader_not_cont hm, hm, containsKey]
    rw [hstep0]
    exact foldl_headerStep_conts k (matchHeader_key_ne_nil hm) conts (pyStrip v) hconts
  · exact headerStep_cont_no_key hs c0 hc0.1 hc0.2

/-- C4 witness: a concrete header line with two continuations folds into
one entry, and a leading continuation with no established key is
dropped. -/
theorem claim_C4_witness :
    parseHeaders [strL "Subject: a", strL " b", strL "\tc"]
      = ⟨[(strL "Subject", pyStrip (strL "a")
            ++ [strL " b", strL "\tc"].flatMap (fun c => '\n' :: pyStrip c))],
         some (strL "Subject")⟩
    ∧ headerStep ⟨[], none⟩ (strL " x") = ⟨[], none⟩ :=
  claim_C4_continuation_folding (strL "Subject: a") [strL " b", strL "\tc"]
    (strL "Subject") (strL "a") [] (strL " x") (by decide) (by decide) (by decide)

/-- C5: two header lines with the same key (and different values) in one
segment leave the mapping with that key exactly once, holding the first
value; the second occurrence changes neither the mapping nor the current
key used for continuation tracking. -/
theorem claim_C5_first_wins (l1 l2 k v1 v2 : Chars) (st : HState)
    (h1 : matchHeader l1 = some (k, v1)) (h2 : matchHeader l2 = some (k, v2))
    (_hne : v1 ≠ v2) (hk : containsKey st.headers k = true) :
    parseHeaders [l1, l2] = ⟨[(k, pyStrip v1)], some k⟩
    ∧ headerStep st l2 = st := by
  constructor
  · unfold parseHeaders
    rw [List.foldl_cons]
    have hstep0 : headerStep ⟨[], none⟩ l1 = ⟨[(k, pyStrip v1)], some k⟩ := by
      simp [headerStep, matchHeader_not_cont h1, h1, containsKey]
    rw [hstep0, List.foldl_cons]
    have hstep1 : headerStep ⟨[(k, pyStrip v1)], some k⟩ l2 = ⟨[(k, pyStrip v1)], some k⟩ :=
      headerStep_existing _ l2 k v2 h2 (by simp [containsKey])
    rw [hstep1]
    rfl
  · exact headerStep_existing st l2 k v2 h2 hk

/-- C5 witness: two concrete duplicate header lines keep the first
value. -/
theorem claim_C5_witness :
    parseHeaders [strL "X: a", strL "X: b"]
      = ⟨[(strL "X", pyStrip (strL "a"))], some (strL "X")⟩
    ∧ headerStep ⟨[(strL "X", strL "z")], none⟩ (strL "X: b")
        = ⟨[(strL "X", strL "z")], none⟩ :=
  claim_C5_first_wins (strL "X: a") (strL "X: b") (strL "X") (strL "a") (strL "b")
    ⟨[(strL "X", strL "z")], none⟩ (by decide) (by decide) (by decide) (by decide)

/-! Lemmas about the body boundary -/

theorem splitHB_append (hls : List Chars) (blank : Chars) (rest : List Chars)
    (hh : ∀ h ∈ hls, pyStrip h ≠ []) (hb : pyStrip blank = []) :
    splitHB (hls ++ blank :: rest) = (hls, rest) := by
  induction hls with
  | nil => simp [splitHB, hb]
  | cons l ls ih =>
    have hl : pyStrip l ≠ [] := hh l (List.mem_cons_self _ _)
    simp [splitHB, hl, ih (fun x hx => hh x (List.mem_cons_of_mem _ hx))]

/-- C6: for a segment whose lines after the envelope line are a block of
non-blank header lines, then a blank line, then further text lines, the
parsed body is exactly the text lines joined with line feeds (the blank
separator is excluded), and the headers come from the header block
alone. -/
theorem claim_C6_body_boundary (hls : List Chars) (blank : Chars) (rest : List Chars)
    (hh : ∀ h ∈ hls, pyStrip h ≠ []) (hb : pyStrip blank = []) :
    (parseSegLines (hls ++ blank :: rest)).body = joinNl rest
    ∧ (parseSegLines (hls ++ blank :: rest)).headers = (parseHeaders hls).headers := by
  have hsb := splitHB_append hls blank rest hh hb
  unfold parseSegLines
  rw [hsb]
  exact ⟨rfl, rfl⟩

/-- C6 witness: a concrete segment with one header line, a blank line and
three body lines (one of them empty) keeps exactly the trailing text as
body. -/
theorem claim_C6_witness :
    (parseSegLines [strL "Subject: Hi", strL "", strL "Hello", strL "", strL "x"]).body
      = joinNl [strL "Hello", strL "", strL "x"]
    ∧ (parseSegLines [strL "Subject: Hi", strL "", strL "Hello", strL "", strL "x"]).headers
      = (parseHeaders [strL "Subject: Hi"]).headers :=
  claim_C6_body_boundary [strL "Subject: Hi"] (strL "") [strL "Hello", strL "", strL "x"]
    (by decide) (by decide)

/-! Lemmas about the exporter file name derivation -/

theorem jTruthy_str_ne_nil (s : Chars) (h : s ≠ []) : jTruthy (.str s) = true := by
  cases s with
  | nil => exact absurd rfl h
  | cons a r => rfl

theorem deriveBase_hash_truthy (hfs : List (Chars × JVal)) (v : JVal)
    (hm : jlookup hfs hashKey = some v) (ht : jTruthy v = true) :
    deriveBase hfs = .ok v := by
  simp only [deriveBase, hm]
  rw [if_pos ht]

theorem emlFilename_hash (hfs : List (Chars × JVal)) (i : Nat) (v : JVal)
    (hm : jlookup hfs hashKey = some v) (ht : jTruthy v = true) :
    emlFilename hfs i = .ok (pyStr v ++ strL ".eml") := by
  simp only [emlFilename, deriveBase_hash_truthy hfs v hm ht]
  rw [if_pos ht]

theorem deriveBase_no_hash (hfs : List (Chars × JVal))
    (hh : hashFalsyOrMissing hfs = true) :
    deriveBase hfs = subjBase hfs := by
  unfold hashFalsyOrMissing at hh
  rcases hm : jlookup hfs hashKey with _ | v
  · simp only [deriveBase, hm]
  · rw [hm] at hh
    have hf : jTruthy v = false := by simpa using hh
    simp [deriveBase, hm, hf]

theorem subjBase_str (hfs : List (Chars × JVal)) (sv : Chars)
    (hsub : jlookup hfs subjectKey = some (.str sv)) (hne : sv ≠ []) :
    subjBase hfs = .ok (.str (sanitize_filename sv)) := by
  simp only [subjBase, hsub]
  rw [if_pos (jTruthy_str_ne_nil sv hne)]

theorem emlFilename_subject (hfs : List (Chars × JVal)) (i : Nat) (sv : Chars)
    (hh : hashFalsyOrMissing hfs = true)
    (hsub : jlookup hfs subjectKey = some (.str sv)) (hne : sv ≠ [])
    (hsan : sanitize_filename sv ≠ []) :
    emlFilename hfs i = .ok (sanitize_filename sv ++ strL ".eml") := by
  have hb := (deriveBase_no_hash hfs hh).trans (subjBase_str hfs sv hsub hne)
  simp only [emlFilename, hb]
  rw [if_pos (jTruthy_str_ne_nil _ hsan)]
  rfl

theorem subjBase_fallback (hfs : List (Chars × JVal))
    (hs : subjFalsyOrSanEmpty hfs = true) :
    subjBase hfs = .ok (.str []) := by
  unfold subjFalsyOrSanEmpty at hs
  rcases hm : jlookup hfs subjectKey with _ | v
  · simp only [subjBase, hm]
  · simp only [hm] at hs
    by_cases ht : jTruthy v = true
    · rw [if_pos ht] at hs
      simp only [subjBase, hm]
      rw [if_pos ht]
      cases v with
      | str s =>
        have hsan : sanitize_filename s = [] := by simpa using hs
        show Except.ok (JVal.str (sanitize_filename s)) = Except.ok (JVal.str [])
        rw [hsan]
      | null => simp at hs
      | bool b => simp at hs
      | num n => simp at hs
      | arr xs => simp at hs
      | obj fs => simp at hs
    · simp only [subjBase, hm]
      rw [if_neg ht]

theorem emlFilename_fallback (hfs : List (Chars × JVal)) (i : Nat)
    (hh : hashFalsyOrMissing hfs = true) (hs : subjFalsyOrSanEmpty hfs = true) :
    emlFilename hfs i = .ok (strL "email_" ++ natStr (i + 1) ++ strL ".eml") := by
  have hb := (deriveBase_no_hash hfs hh).trans (subjBase_fallback hfs hs)
  simp only [emlFilename, hb]
  rw [if_neg (by decide : ¬(jTruthy (JVal.str []) = true))]

/-- C2 counterexample: for a record with only the header Subject set to
the string Hello World!! (present and non-empty), the code derives the
file name Hello_World!!.eml, not Hello_World.eml as the claim states,
because the sanitizer strips only the nine listed characters and keeps the
exclamation marks; and for a record whose Subject sanitizes to the empty
string the code falls back to the positional name instead of using the
sanitized subject. -/
theorem claim_C2_counterexample :
    emlFilename [(subjectKey, .str (strL "Hello World!!"))] 0
      = .ok (strL "Hello_World!!.eml")
    ∧ strL "Hello_World!!.eml" ≠ strL "Hello_World.eml"
    ∧ emlFilename [(subjectKey, .str (strL "???"))] 0 = .ok (strL "email_1.eml")
    ∧ sanitize_filename (strL "???") ++ strL ".eml" ≠ strL "email_1.eml" :=
  ⟨rfl, by decide, rfl, by decide⟩

/-- C2 amended: the derived file name follows the precedence: a present
truthy X-CCC-HASH value is used as is; otherwise a present non-empty
Subject string whose sanitized form is non-empty yields the sanitized
subject; otherwise the positional fallback email_ with the one based index
is used; always with the eml extension appended.  Concretely, hash abc123
with subject Hello World yields abc123.eml, subject Hello World!! alone
yields Hello_World!!.eml, and no header yields email_4.eml at index 3. -/
theorem claim_C2_amended (hfs : List (Chars × JVal)) (i : Nat) :
    (∀ v, jlookup hfs hashKey = some v → jTruthy v = true →
        emlFilename hfs i = .ok (pyStr v ++ strL ".eml"))
    ∧ (∀ sv, hashFalsyOrMissing hfs = true → jlookup hfs subjectKey = some (.str sv) →
        sv ≠ [] → sanitize_filename sv ≠ [] →
        emlFilename hfs i = .ok (sanitize_filename sv ++ strL ".eml"))
    ∧ (hashFalsyOrMissing hfs = true → subjFalsyOrSanEmpty hfs = true →
        emlFilename hfs i = .ok (strL "email_" ++ natStr (i + 1) ++ strL ".eml"))
    ∧ emlFilename [(hashKey, .str (strL "abc123")), (subjectKey, .str (strL "Hello World"))] 0
        = .ok (strL "abc123.eml")
    ∧ emlFilename [(subjectKey, .str (strL "Hello World!!"))] 0
        = .ok (strL "Hello_World!!.eml")
    ∧ emlFilename [] 3 = .ok (strL "email_4.eml") := by
  refine ⟨?_, ?_, ?_, rfl, rfl, rfl⟩
  · intro v hm ht
    exact emlFilename_hash hfs i v hm ht
  · intro sv hh hsub hne hsan
    exact emlFilename_subject hfs i sv hh hsub hne hsan
  · intro hh hs
    exact emlFilename_fallback hfs i hh hs

/-- C2 amended witness: the three precedence branches evaluated at
concrete records. -/
theorem claim_C2_witness :
    emlFilename [(hashKey, .str (strL "h1")), (subjectKey, .str (strL "s"))] 0
      = .ok (pyStr (.str (strL "h1")) ++ strL ".eml")
    ∧ emlFilename [(subjectKey, .str (strL "Hi there"))] 0
      = .ok (sanitize_filename (strL "Hi there") ++ strL ".eml")
    ∧ emlFilename [(subjectKey, .str (strL "???"))] 4
      = .ok (strL "email_" ++ natStr 5 ++ strL ".eml") :=
  ⟨(claim_C2_amended [(hashKey, .str (strL "h1")), (subjectKey, .str (strL "s"))] 0).1
      (.str (strL "h1")) (by rfl) (by rfl),
   (claim_C2_amended [(subjectKey, .str (strL "Hi there"))] 0).2.1
      (strL "Hi there") (by rfl) (by rfl) (by decide) (by decide),
   (claim_C2_amended [(subjectKey, .str (strL "???"))] 4).2.2.1 (by rfl) (by rfl)⟩

/-! Lemmas about the export loop -/

theorem jlookup_all_str (hfs : List (Chars × JVal))
    (hall : ∀ p ∈ hfs, isStrVal p.2 = true) :
    ∀ k v, jlookup hfs k = some v → isStrVal v = true := by
  induction hfs with
  | nil => intro k v h; simp [jlookup] at h
  | cons p rest ih =>
    intro k v h
    simp only [jlookup] at h
    by_cases hp : (p.1 == k) = true
    · rw [if_pos hp] at h
      injection h with h2
      subst h2
      exact hall p (List.mem_cons_self _ _)
    · rw [if_neg hp] at h
      exact ih (fun q hq => hall q (List.mem_cons_of_mem _ hq)) k v h

theorem deriveBase_ok (hfs : List (Chars × JVal))
    (hall : ∀ p ∈ hfs, isStrVal p.2 = true) :
    ∃ b, deriveBase hfs = .ok b := by
  have hsubj : ∃ b, subjBase hfs = .ok b := by
    rcases hm : jlookup hfs subjectKey with _ | v
    · exact ⟨.str [], by simp only [subjBase, hm]⟩
    · have hsv := jlookup_all_str hfs hall subjectKey v hm
      cases v with
      | str s =>
        by_cases ht : jTruthy (JVal.str s) = true
        · exact ⟨.str (sanitize_filename s), by simp only [subjBase, hm]; rw [if_pos ht]⟩
        · exact ⟨.str [], by simp only [subjBase, hm]; rw [if_neg ht]⟩
      | null => simp [isStrVal] at hsv
      | bool b => simp [isStrVal] at hsv
      | num n => simp [isStrVal] at hsv
      | arr xs => simp [isStrVal] at hsv
      | obj fs => simp [isStrVal] at hsv
  rcases hm : jlookup hfs hashKey with _ | v
  · obtain ⟨b, hb⟩ := hsubj
    exact ⟨b, by simp only [deriveBase, hm]; exact hb⟩
  · by_cases ht : jTruthy v = true
    · exact ⟨v, by simp only [deriveBase, hm]; rw [if_pos ht]⟩
    · obtain ⟨b, hb⟩ := hsubj
      exact ⟨b, by simp only [deriveBase, hm]; rw [if_neg ht]; exact hb⟩

theorem emlFilename_ok (hfs : List (Chars × JVal)) (i : Nat)
    (hall : ∀ p ∈ hfs, isStrVal p.2 = true) :
    ∃ name, emlFilename hfs i = .ok name := by
  obtain ⟨b, hb⟩ := deriveBase_ok hfs hall
  refine ⟨(if jTruthy b then pyStr b else strL "email_" ++ natStr (i + 1)) ++ strL ".eml", ?_⟩
  simp only [emlFilename, hb]

theorem processItem_valid (i : Nat) (e : JVal) (hv : validRecord e = true) :
    ∃ n c, processItem i e = .written n c := by
  cases e with
  | obj fs =>
    rcases hm : jlookup fs headersKey with _ | hv2
    · obtain ⟨name, hname⟩ := emlFilename_ok [] i (by simp)
      refine ⟨name, emlContent [] ((jlookup fs bodyKey).getD (.str [])), ?_⟩
      simp only [processItem, hm, Option.getD_none, hname]
    · simp only [validRecord, hm] at hv
      cases hv2 with
      | obj hfs =>
        have hall : ∀ p ∈ hfs, isStrVal p.2 = true := by
          intro p hp
          exact List.all_eq_true.mp hv p hp
        obtain ⟨name, hname⟩ := emlFilename_ok hfs i hall
        refine ⟨name, emlContent hfs ((jlookup fs bodyKey).getD (.str [])), ?_⟩
        simp only [processItem, hm, Option.getD_some, hname]
      | null => simp at hv
      | bool b => simp at hv
      | num n => simp at hv
      | str s => simp at hv
      | arr xs => simp at hv
  | null => simp [validRecord] at hv
  | bool b => simp [validRecord] at hv
  | num n => simp [validRecord] at hv
  | str s => simp [validRecord] at hv
  | arr xs => simp [validRecord] at hv

theorem processItem_bad (i : Nat) (e : JVal) (hb : badRecord e = true) :
    processItem i e = .skipped := by
  cases e with
  | obj fs =>
    rcases hm : jlookup fs headersKey with _ | v
    · simp only [badRecord, hm] at hb
      exact Bool.noConfusion hb
    · simp only [badRecord, hm] at hb
      cases v with
      | obj hfs => simp at hb
      | null => simp [processItem, hm]
      | bool b2 => simp [processItem, hm]
      | num n => simp [processItem, hm]
      | str s => simp [processItem, hm]
      | arr xs => simp [processItem, hm]
  | null => rfl
  | bool b2 => rfl
  | num n => rfl
  | str s => rfl
  | arr xs => rfl

theorem convertAux_all_valid :
    ∀ (items : List JVal) (i : Nat), (∀ e ∈ items, validRecord e = true) →
      (convertAux i items).files.length = items.length
      ∧ (convertAux i items).warnings = 0
      ∧ (convertAux i items).crashed = false := by
  intro items
  induction items with
  | nil => intro i _; exact ⟨rfl, rfl, rfl⟩
  | cons e rest ih =>
    intro i h
    obtain ⟨n, c, hw⟩ := processItem_valid i e (h e (List.mem_cons_self _ _))
    obtain ⟨h1, h2, h3⟩ := ih (i + 1) (fun x hx => h x (List.mem_cons_of_mem _ hx))
    simp only [convertAux, hw]
    exact ⟨by simp only [List.length_cons, h1], h2, h3⟩

theorem convertAux_bad_mid (bad : JVal) (post : List JVal)
    (hbad : badRecord bad = true) (hpost : ∀ e ∈ post, validRecord e = true) :
    ∀ (pre : List JVal) (i : Nat), (∀ e ∈ pre, validRecord e = true) →
      (convertAux i (pre ++ bad :: post)).files.length = pre.length + post.length
      ∧ (convertAux i (pre ++ bad :: post)).warnings = 1
      ∧ (convertAux i (pre ++ bad :: post)).crashed = false := by
  intro pre
  induction pre with
  | nil =>
    intro i _
    have hskip := processItem_bad i bad hbad
    obtain ⟨h1, h2, h3⟩ := convertAux_all_valid post (i + 1) hpost
    simp only [List.nil_append, convertAux, hskip]
    exact ⟨by simp only [h1, List.length_nil]; omega, by omega, h3⟩
  | cons e rest ih =>
    intro i h
    obtain ⟨n, c, hw⟩ := processItem_valid i e (h e (List.mem_cons_self _ _))
    obtain ⟨h1, h2, h3⟩ := ih (i + 1) (fun x hx => h x (List.mem_cons_of_mem _ hx))
    simp only [List.cons_append, convertAux, hw]
    refine ⟨?_, h2, h3⟩
    simp only [List.length_cons, List.append_eq, h1]
    omega

/-- C8: a structured-document array made of valid record objects with one
malformed element anywhere in the middle (not an object, or headers not an
object) yields one written file per valid record, exactly one printed
warning, and no abort of the run. -/
theorem claim_C8_graceful_skip (pre : List JVal) (bad : JVal) (post : List JVal)
    (hpre : ∀ e ∈ pre, validRecord e = true)
    (hpost : ∀ e ∈ post, validRecord e = true)
    (hbad : badRecord bad = true) :
    (convert_json_to_eml (pre ++ bad :: post)).files.length = pre.length + post.length
    ∧ (convert_json_to_eml (pre ++ bad :: post)).warnings = 1
    ∧ (convert_json_to_eml (pre ++ bad :: post)).crashed = false :=
  convertAux_bad_mid bad post hbad hpost pre 0 hpre

/-- C8 witness: two valid records around one malformed element yield two
files, one warning, and no abort. -/
theorem claim_C8_witness :
    (convert_json_to_eml
        [JVal.obj [(headersKey, .obj [(subjectKey, .str (strL "A"))]), (bodyKey, .str (strL "a"))],
         JVal.str (strL "junk"),
         JVal.obj [(headersKey, .obj [(subjectKey, .str (strL "B"))]), (bodyKey, .str (strL "b"))]]
      ).files.length = 2
    ∧ (convert_json_to_eml
        [JVal.obj [(headersKey, .obj [(subjectKey, .str (strL "A"))]), (bodyKey, .str (strL "a"))],
         JVal.str (strL "junk"),
         JVal.obj [(headersKey, .obj [(subjectKey, .str (strL "B"))]), (bodyKey, .str (strL "b"))]]
      ).warnings = 1
    ∧ (convert_json_to_eml
        [JVal.obj [(headersKey, .obj [(subjectKey, .str (strL "A"))]), (bodyKey, .str (strL "a"))],
         JVal.str (strL "junk"),
         JVal.obj [(headersKey, .obj [(subjectKey, .str (strL "B"))]), (bodyKey, .str (strL "b"))]]
      ).crashed = false :=
  claim_C8_graceful_skip
    [JVal.obj [(headersKey, .obj [(subjectKey, .str (strL "A"))]), (bodyKey, .str (strL "a"))]]
    (JVal.str (strL "junk"))
    [JVal.obj [(headersKey, .obj [(subjectKey, .str (strL "B"))]), (bodyKey, .str (strL "b"))]]
    (by decide) (by decide) (by decide)
